import Mathlib

/-!
Verification development for the ranking-evaluation and opportunity-modeling
engine of the dollars-and-sense repository.

The embedding covers:
* `tools/ndcg_visualizer.py`: `get_relevance_score`, `calculate_dcg`,
  `calculate_idcg`, `calculate_ndcg`, `get_ideal_ranking`.
* `tools/ndcg_server.py`: the module-level `safe_float` helper, the
  per-endpoint `safe_float` helpers of `api_optimization` and
  `api_gmv_opportunity`, the `calc_gmv_opportunity` closure, and the
  dimension-grouping / overall-benchmark aggregation of the SQL queries in
  `api_optimization` and `api_gmv_opportunity`.

Real-valued float arithmetic is embedded as exact real arithmetic over `ℝ`;
monetary and ratio arithmetic of the opportunity model is embedded over `ℚ`.
-/

namespace NdcgSpec

/-- An interaction record as consumed by the scoring functions: of the dict
fields only `position`, `clicked` and `purchased` are ever read by the
evaluation engine (`position` is in fact never read by the scoring code, which
is one of the claims under verification). -/
structure Item where
  position : Int
  clicked : Bool
  purchased : Bool
deriving DecidableEq, Repr

/-- `get_relevance_score(item, graded)` from `tools/ndcg_visualizer.py`:
graded mode returns 4 for purchased, 2 for clicked-not-purchased, 0 otherwise;
binary mode returns 1 for purchased else 0. -/
def get_relevance_score (item : Item) (graded : Bool) : ℕ :=
  if graded then
    if item.purchased then 4
    else if item.clicked then 2
    else 0
  else
    if item.purchased then 1 else 0

/-- The loop body of `calculate_dcg`: iterate over the (already truncated)
list with a 1-based counter `i`, accumulating `rel / log2(i + 1)`. -/
noncomputable def dcg_loop (graded : Bool) : List Item → ℕ → ℝ
  | [], _ => 0
  | item :: rest, i =>
      (get_relevance_score item graded : ℝ) / Real.logb 2 (i + 1)
        + dcg_loop graded rest (i + 1)

/-- `calculate_dcg(items, k, graded)`: DCG@K of the list in its given order,
`for i, item in enumerate(items[:k], start=1): dcg += rel / log2(i + 1)`. -/
noncomputable def calculate_dcg (items : List Item) (k : ℕ) (graded : Bool) : ℝ :=
  dcg_loop graded (items.take k) 1

/-- The comparison used by `sorted(items, key=get_relevance_score,
reverse=True)`: `a` may come before `b` iff the relevance of `a` is at least
that of `b`. -/
def relGE (graded : Bool) (a b : Item) : Prop :=
  get_relevance_score b graded ≤ get_relevance_score a graded

instance relGE.decidableRel (g : Bool) : DecidableRel (relGE g) :=
  fun _ _ => Nat.decLe _ _

instance relGE.isTotal (g : Bool) : IsTotal Item (relGE g) :=
  ⟨fun a b => (Nat.le_total (get_relevance_score b g) (get_relevance_score a g))⟩

instance relGE.isTrans (g : Bool) : IsTrans Item (relGE g) :=
  ⟨fun _ _ _ hab hbc => Nat.le_trans hbc hab⟩

/-- `get_ideal_ranking(items, graded)`: Python's `sorted` with
`reverse=True` is a stable descending sort by relevance; it is modelled by
`List.insertionSort` with the relation `relGE`, which is stable and produces
the same ordering. -/
def get_ideal_ranking (items : List Item) (graded : Bool) : List Item :=
  List.insertionSort (relGE graded) items

/-- `calculate_idcg(items, k, graded)`: DCG@K of the items sorted by
relevance descending (the same sort expression as `get_ideal_ranking`). -/
noncomputable def calculate_idcg (items : List Item) (k : ℕ) (graded : Bool) : ℝ :=
  calculate_dcg (get_ideal_ranking items graded) k graded

/-- `calculate_ndcg(items, k, graded)`: `dcg / idcg`, with an explicit
guard returning `0.0` when `idcg == 0`. -/
noncomputable def calculate_ndcg (items : List Item) (k : ℕ) (graded : Bool) : ℝ :=
  if calculate_idcg items k graded = 0 then 0
  else calculate_dcg items k graded / calculate_idcg items k graded

/-- Weighted sum with position-dependent weights, used to reason about
`dcg_loop`: `wsum D [a0, a1, ...] = a0 * D 0 + a1 * D 1 + ...`. -/
noncomputable def wsum (D : ℕ → ℝ) : List ℝ → ℝ
  | [] => 0
  | a :: v => a * D 0 + wsum (fun j => D (j + 1)) v

/-- The relevance table as a function of the `(clicked, purchased)` pair
alone; `get_relevance_score` factors through it, which is what makes the
scores independent of the `position` field. -/
def relPair (p : Bool × Bool) (graded : Bool) : ℕ :=
  if graded then
    if p.2 then 4
    else if p.1 then 2
    else 0
  else
    if p.2 then 1 else 0

/-- The scoring-relevant projection of a record. -/
def interactionFlags (x : Item) : Bool × Bool :=
  (x.clicked, x.purchased)

/-- A junk record used as the `getD` default in index-based statements. -/
def defaultItem : Item :=
  ⟨0, false, false⟩

/-- Descending order on real relevance grades: `a` may precede `b` iff
`b ≤ a`. -/
def descR (a b : ℝ) : Prop :=
  b ≤ a

noncomputable instance descR.decidableRel : DecidableRel descR :=
  fun a b => Real.decidableLE b a

instance descR.isTotal : IsTotal ℝ descR :=
  ⟨fun a b => le_total b a⟩

instance descR.isTrans : IsTrans ℝ descR :=
  ⟨fun _ _ _ hab hbc => le_trans hbc hab⟩

instance descR.isAntisymm : IsAntisymm ℝ descR :=
  ⟨fun _ _ hab hba => le_antisymm hba hab⟩

/-- The zero-based discount sequence of `calculate_dcg`: the record at
zero-based prefix index `j` (1-based rank `j + 1`) is discounted by
`1 / log2(j + 2)`. -/
noncomputable def discount (j : ℕ) : ℝ :=
  1 / Real.logb 2 (j + 2)

/-- The truncated discount weights: weight of zero-based prefix index `j`
under cutoff `k`. -/
noncomputable def truncWeight (k j : ℕ) : ℝ :=
  if j < k then 1 / Real.logb 2 (((1 + j + 1 : ℕ) : ℝ)) else 0

/-! ## GMV opportunity model (`api_gmv_opportunity` in `tools/ndcg_server.py`) -/

/-- `UPLIFT_FACTOR = 1.5` from `api_gmv_opportunity`. -/
def UPLIFT_FACTOR : ℚ := 1.5

/-- `calc_gmv_opportunity(current_ndcg, current_gmv, target_ndcg)` from
`api_gmv_opportunity`: zero when current NDCG is non-positive or already at
or above target, otherwise `current_gmv * (relative gap) * UPLIFT_FACTOR`
where the gap is taken relative to the current NDCG. -/
def calc_gmv_opportunity (current_ndcg current_gmv target_ndcg : ℚ) : ℚ :=
  if current_ndcg ≤ 0 ∨ target_ndcg ≤ current_ndcg then 0
  else
    current_gmv * ((target_ndcg - current_ndcg) / current_ndcg * 100 / 100)
      * UPLIFT_FACTOR

/-! ## Numeric sanitization helpers (`safe_float` in `tools/ndcg_server.py`) -/

/-- A Python float value: finite (embedded exactly as a rational), NaN, or a
signed infinity. -/
inductive PyFloat where
  | fin : ℚ → PyFloat
  | nan : PyFloat
  | inf : PyFloat
  | ninf : PyFloat
deriving DecidableEq, Repr

/-- `math.isnan` on a `PyFloat`. -/
def PyFloat.isnan : PyFloat → Bool
  | .nan => true
  | _ => false

/-- `math.isinf` on a `PyFloat` (true for both infinities). -/
def PyFloat.isinf : PyFloat → Bool
  | .inf => true
  | .ninf => true
  | _ => false

/-- A value handed to a `safe_float` helper: Python `None`, a value that
`float(val)` converts to the given float, or a value on which `float(val)`
raises `TypeError` or `ValueError`. -/
inductive PyVal where
  | none : PyVal
  | flt : PyFloat → PyVal
  | unparseable : PyVal
deriving DecidableEq, Repr

/-- The module-level `safe_float(val, default=None)` of `tools/ndcg_server.py`
(lines 36-54): returns `default` for `None`, for NaN, for either infinity and
for unparseable input; otherwise the converted float.  The Python `None`
default is modelled by `Option`. -/
def safe_float (val : PyVal) (default : Option PyFloat) : Option PyFloat :=
  match val with
  | .none => default
  | .flt f => if f.isnan || f.isinf then default else some f
  | .unparseable => default

/-- The per-endpoint `safe_float(val, default=0)` defined inside both
`api_optimization` (lines 2463-2472) and `api_gmv_opportunity`
(lines 2665-2673) of `tools/ndcg_server.py`: returns `default` for `None`,
for NaN and for unparseable input, but checks only `math.isnan`, so it
returns the float unchanged for either infinity. -/
def endpoint_safe_float (val : PyVal) (default : PyFloat) : PyFloat :=
  match val with
  | .none => default
  | .flt f => if f.isnan then default else f
  | .unparseable => default

/-! ## Dimension rollup of `api_optimization` and `api_gmv_opportunity`

The SQL of both endpoints groups session-level rows by `dimension_value`
(`GROUP BY dimension_value HAVING COUNT(DISTINCT session_id) >= threshold`)
and then computes the `overall` benchmark CTE `FROM dimension_metrics`,
i.e. from the rows that survived the `HAVING` filter. -/

/-- One row of the `session_metrics` CTE: a session's id, its dimension
value, and its per-session NDCG (`SAFE_DIVIDE(dcg, NULLIF(idcg, 0))`,
modelled as an already-computed rational). -/
structure SessionRow where
  session_id : ℕ
  dimension_value : String
  ndcg : ℚ
deriving DecidableEq, Repr

/-- The minimum distinct-session count of `api_optimization`
(`HAVING COUNT(DISTINCT session_id) >= 100`). -/
def OPT_MIN_SESSIONS : ℕ := 100

/-- The minimum distinct-session count of `api_gmv_opportunity`
(`HAVING COUNT(DISTINCT session_id) >= 50`). -/
def GMV_MIN_SESSIONS : ℕ := 50

/-- The distinct dimension values occurring in the rows (the grouping keys
of `GROUP BY dimension_value`). -/
def groupValues (rows : List SessionRow) : List String :=
  (rows.map (fun r => r.dimension_value)).dedup

/-- The rows belonging to one dimension group. -/
def groupRows (rows : List SessionRow) (v : String) : List SessionRow :=
  rows.filter (fun r => r.dimension_value = v)

/-- `COUNT(DISTINCT session_id)` within one dimension group. -/
def distinctSessions (rows : List SessionRow) (v : String) : ℕ :=
  ((groupRows rows v).map (fun r => r.session_id)).dedup.length

/-- SQL `AVG` over a list of rationals (0 for the empty list; the SQL value
would be NULL, which the endpoints then coerce with `safe_float`). -/
def avgQ (xs : List ℚ) : ℚ :=
  if xs.length = 0 then 0 else xs.sum / xs.length

/-- The `dimension_metrics` CTE: one `(dimension_value, avg_ndcg)` row per
dimension group that passes the `HAVING COUNT(DISTINCT session_id) >=
minSessions` filter. -/
def dimension_metrics (minSessions : ℕ) (rows : List SessionRow) :
    List (String × ℚ) :=
  ((groupValues rows).filter (fun v => minSessions ≤ distinctSessions rows v)).map
    (fun v => (v, avgQ ((groupRows rows v).map (fun r => r.ndcg))))

/-- The `overall_avg_ndcg` of the `overall` CTE: `AVG(avg_ndcg) FROM
dimension_metrics`, i.e. the mean over the groups that passed the
session-count filter. -/
def overall_avg_ndcg (minSessions : ℕ) (rows : List SessionRow) : ℚ :=
  avgQ ((dimension_metrics minSessions rows).map (fun p => p.2))

/-- Modelled from the spec: the overall NDCG benchmark as the claim describes
it, with the sessions of below-threshold groups still included — the mean of
per-group average NDCG over all dimension groups, with no session-count
filter.  (The spec sentence is the part of the claim not realized in
`src/`; compared against `overall_avg_ndcg`, which is the code.) -/
def overall_avg_ndcg_all_groups (rows : List SessionRow) : ℚ :=
  avgQ ((groupValues rows).map
    (fun v => avgQ ((groupRows rows v).map (fun r => r.ndcg))))

/-- The concrete dataset for the C5 counterexample: 50 distinct sessions of
a dimension group "b" with per-session NDCG 1, plus one session of a
dimension group "a" with per-session NDCG 0 (below the 50-session
threshold of `api_gmv_opportunity`). -/
def c5rows : List SessionRow :=
  (List.range 50).map (fun i => ⟨i, "b", 1⟩) ++ [⟨50, "a", 0⟩]

/-! ## Helper lemmas -/

theorem discount_weight_nonneg (j : ℕ) :
    0 ≤ 1 / Real.logb 2 (((1 + j + 1 : ℕ) : ℝ)) := by
  apply one_div_nonneg.mpr
  apply Real.logb_nonneg one_lt_two
  push_cast
  have := (Nat.cast_nonneg (α := ℝ) j)
  linarith

theorem discount_weight_antitone :
    Antitone (fun j : ℕ => 1 / Real.logb 2 (((1 + j + 1 : ℕ) : ℝ))) := by
  intro i j hij
  apply one_div_le_one_div_of_le
  · apply Real.logb_pos one_lt_two
    push_cast
    have := (Nat.cast_nonneg (α := ℝ) i)
    linarith
  · apply Real.logb_le_logb_of_le one_lt_two
    · push_cast
      have := (Nat.cast_nonneg (α := ℝ) i)
      linarith
    · exact_mod_cast Nat.add_le_add_right (Nat.add_le_add_left hij 1) 1

theorem truncWeight_nonneg (k j : ℕ) : 0 ≤ truncWeight k j := by
  unfold truncWeight
  by_cases hj : j < k
  · rw [if_pos hj]; exact discount_weight_nonneg j
  · rw [if_neg hj]

theorem truncWeight_antitone (k : ℕ) : Antitone (truncWeight k) := by
  intro i j hij
  unfold truncWeight
  by_cases hj : j < k
  · rw [if_pos hj, if_pos (lt_of_le_of_lt hij hj)]
    exact discount_weight_antitone hij
  · rw [if_neg hj]
    exact truncWeight_nonneg k i

theorem wsum_congr {D E : ℕ → ℝ} (h : ∀ j, D j = E j) :
    ∀ v : List ℝ, wsum D v = wsum E v
  | [] => rfl
  | a :: v => by
    rw [wsum, wsum, h 0, wsum_congr (fun j => h (j + 1)) v]

theorem wsum_eq_zero {D : ℕ → ℝ} (h : ∀ j, D j = 0) :
    ∀ v : List ℝ, wsum D v = 0
  | [] => rfl
  | a :: v => by
    rw [wsum, h 0, wsum_eq_zero (fun j => h (j + 1)) v, mul_zero, add_zero]

theorem wsum_nonneg {D : ℕ → ℝ} (hD : ∀ j, 0 ≤ D j) :
    ∀ v : List ℝ, (∀ a ∈ v, 0 ≤ a) → 0 ≤ wsum D v
  | [], _ => le_refl 0
  | a :: v, hv => by
    rw [wsum]
    have h1 : 0 ≤ a * D 0 :=
      mul_nonneg (hv a (List.mem_cons_self a v)) (hD 0)
    have h2 : 0 ≤ wsum (fun j => D (j + 1)) v :=
      wsum_nonneg (fun j => hD (j + 1)) v (fun b hb => hv b (List.mem_cons_of_mem a hb))
    linarith

/-- Truncating the list is the same as truncating the weights. -/
theorem wsum_take (v : List ℝ) :
    ∀ (k : ℕ) (D : ℕ → ℝ),
      wsum D (v.take k) = wsum (fun j => if j < k then D j else 0) v := by
  induction v with
  | nil => intro k D; simp [wsum]
  | cons a v ih =>
    intro k D
    cases k with
    | zero =>
      rw [List.take_zero]
      show (0 : ℝ) = wsum _ (a :: v)
      rw [wsum, wsum_eq_zero (fun j => by simp) v]
      simp
    | succ k =>
      rw [List.take_succ_cons, wsum, wsum, ih k (fun j => D (j + 1))]
      simp only [Nat.zero_lt_succ, if_true, Nat.add_lt_add_iff_right]

theorem antitone_shift {D : ℕ → ℝ} (hD : Antitone D) :
    Antitone (fun j => D (j + 1)) :=
  fun _ _ hij => hD (Nat.add_le_add_right hij 1)

/-- Inserting `a` into a relevance-descending sorted list never decreases
the antitone-weighted sum compared to prepending `a`: the single-swap step
of the rearrangement argument. -/
theorem wsum_cons_le_wsum_orderedInsert :
    ∀ (t : List ℝ) (D : ℕ → ℝ), Antitone D → ∀ a : ℝ, t.Sorted descR →
      wsum D (a :: t) ≤ wsum D (List.orderedInsert descR a t) := by
  intro t
  induction t with
  | nil => intro D hD a _; simp [List.orderedInsert]
  | cons b t2 ih =>
    intro D hD a hsort
    by_cases hab : descR a b
    · simp [List.orderedInsert, if_pos hab]
    · obtain ⟨hb_all, ht2⟩ := List.sorted_cons.mp hsort
      have hcb : a ≤ b := le_of_not_le hab
      have hD10 : D 1 ≤ D 0 := hD (by omega)
      have ihh := ih (fun j => D (j + 1)) (antitone_shift hD) a ht2
      simp only [wsum, zero_add] at ihh ⊢
      rw [List.orderedInsert, if_neg hab]
      simp only [wsum, zero_add]
      have key : 0 ≤ (b - a) * (D 0 - D 1) :=
        mul_nonneg (by linarith) (by linarith)
      nlinarith [ihh, key]

/-- The rearrangement inequality for this engine: with antitone weights, the
weighted sum of any list of relevance grades is at most that of its
relevance-descending sort. -/
theorem wsum_le_wsum_insertionSort :
    ∀ (w : List ℝ) (D : ℕ → ℝ), Antitone D →
      wsum D w ≤ wsum D (List.insertionSort descR w) := by
  intro w
  induction w with
  | nil => intro D _; exact le_refl _
  | cons a w2 ih =>
    intro D hD
    have step1 : wsum D (a :: w2) ≤ wsum D (a :: List.insertionSort descR w2) := by
      simp only [wsum]
      have := ih (fun j => D (j + 1)) (antitone_shift hD)
      linarith
    have step2 : wsum D (a :: List.insertionSort descR w2) ≤
        wsum D (List.orderedInsert descR a (List.insertionSort descR w2)) :=
      wsum_cons_le_wsum_orderedInsert _ D hD a (List.sorted_insertionSort descR w2)
    exact le_trans step1 step2

/-- `dcg_loop` is the weighted sum of the relevance grades with the
log-discount weights anchored at start index `s`. -/
theorem dcg_loop_eq_wsum (g : Bool) :
    ∀ (l : List Item) (s : ℕ),
      dcg_loop g l s =
        wsum (fun j => 1 / Real.logb 2 (((s + j + 1 : ℕ) : ℝ)))
          (l.map (fun x => (get_relevance_score x g : ℝ))) := by
  intro l
  induction l with
  | nil => intro s; rfl
  | cons x xs ih =>
    intro s
    rw [List.map_cons, dcg_loop, wsum, ih (s + 1)]
    have h0 : ((s : ℝ) + 1) = (((s + 0 + 1 : ℕ) : ℝ)) := by push_cast; ring
    rw [div_eq_mul_one_div, h0]
    congr 1
    exact wsum_congr (fun j => by
      have h : s + 1 + j + 1 = s + (j + 1) + 1 := by omega
      simp [h]) _


/-- `calculate_dcg` as a weighted sum over the full (untruncated) relevance
sequence with cutoff-truncated weights. -/
theorem calculate_dcg_eq_wsum (m : List Item) (k : ℕ) (g : Bool) :
    calculate_dcg m k g =
      wsum (truncWeight k) (m.map (fun x => (get_relevance_score x g : ℝ))) := by
  show dcg_loop g (m.take k) 1 = _
  rw [dcg_loop_eq_wsum g (m.take k) 1, List.map_take,
    wsum_take (m.map (fun x => (get_relevance_score x g : ℝ))) k]
  rfl

/-- Mapping relevance over the ideal ranking is the descending sort of the
mapped relevance sequence. -/
theorem map_rel_get_ideal_ranking (l : List Item) (g : Bool) :
    (get_ideal_ranking l g).map (fun x => (get_relevance_score x g : ℝ)) =
      List.insertionSort descR
        (l.map (fun x => (get_relevance_score x g : ℝ))) :=
  List.map_insertionSort (relGE g) descR
    (fun x => (get_relevance_score x g : ℝ)) l
    (fun a _ b _ => by unfold relGE descR; exact Iff.symm Nat.cast_le)

/-- The central inequality: the DCG of the list as given never exceeds the
DCG of its relevance-descending permutation. -/
theorem dcg_le_idcg (l : List Item) (k : ℕ) (g : Bool) :
    calculate_dcg l k g ≤ calculate_idcg l k g := by
  show _ ≤ calculate_dcg (get_ideal_ranking l g) k g
  rw [calculate_dcg_eq_wsum l k g, calculate_dcg_eq_wsum (get_ideal_ranking l g) k g,
    map_rel_get_ideal_ranking l g]
  exact wsum_le_wsum_insertionSort _ (truncWeight k) (truncWeight_antitone k)

theorem dcg_loop_nonneg (g : Bool) :
    ∀ (l : List Item) (s : ℕ), 0 ≤ dcg_loop g l s := by
  intro l
  induction l with
  | nil => intro s; exact le_refl 0
  | cons x xs ih =>
    intro s
    rw [dcg_loop]
    have h1 : (0 : ℝ) ≤ (get_relevance_score x g : ℝ) / Real.logb 2 ((s : ℝ) + 1) := by
      apply div_nonneg (Nat.cast_nonneg _)
      apply Real.logb_nonneg one_lt_two
      have := (Nat.cast_nonneg (α := ℝ) s)
      linarith
    have h2 := ih (s + 1)
    linarith

theorem calculate_dcg_nonneg (l : List Item) (k : ℕ) (g : Bool) :
    0 ≤ calculate_dcg l k g :=
  dcg_loop_nonneg g (l.take k) 1

theorem calculate_idcg_nonneg (l : List Item) (k : ℕ) (g : Bool) :
    0 ≤ calculate_idcg l k g :=
  calculate_dcg_nonneg (get_ideal_ranking l g) k g

/-- `calculate_dcg` depends only on the sequence of relevance grades. -/
theorem calculate_dcg_congr_rel (l1 l2 : List Item) (k : ℕ) (g : Bool)
    (h : l1.map (fun x => get_relevance_score x g) =
      l2.map (fun x => get_relevance_score x g)) :
    calculate_dcg l1 k g = calculate_dcg l2 k g := by
  rw [calculate_dcg_eq_wsum l1 k g, calculate_dcg_eq_wsum l2 k g]
  congr 1
  have e1 : l1.map (fun x => (get_relevance_score x g : ℝ)) =
      (l1.map (fun x => get_relevance_score x g)).map (fun n : ℕ => (n : ℝ)) := by
    rw [List.map_map]; rfl
  have e2 : l2.map (fun x => (get_relevance_score x g : ℝ)) =
      (l2.map (fun x => get_relevance_score x g)).map (fun n : ℕ => (n : ℝ)) := by
    rw [List.map_map]; rfl
  rw [e1, e2, h]

/-- Two permutation-equivalent real lists have the same descending sort. -/
theorem insertionSort_descR_eq_of_perm (w1 w2 : List ℝ) (hp : w1.Perm w2) :
    List.insertionSort descR w1 = List.insertionSort descR w2 :=
  List.eq_of_perm_of_sorted
    ((List.perm_insertionSort descR w1).trans
      (hp.trans (List.perm_insertionSort descR w2).symm))
    (List.sorted_insertionSort descR w1) (List.sorted_insertionSort descR w2)

theorem dcg_loop_eq_zero_of_rel_zero (g : Bool) :
    ∀ (l : List Item), (∀ x ∈ l, get_relevance_score x g = 0) →
      ∀ s : ℕ, dcg_loop g l s = 0 := by
  intro l
  induction l with
  | nil => intro _ s; rfl
  | cons x xs ih =>
    intro h s
    rw [dcg_loop, h x (List.mem_cons_self x xs),
      ih (fun y hy => h y (List.mem_cons_of_mem x hy)) (s + 1)]
    simp

theorem calculate_idcg_eq_zero_of_rel_zero (l : List Item) (k : ℕ) (g : Bool)
    (h : ∀ x ∈ l, get_relevance_score x g = 0) :
    calculate_idcg l k g = 0 := by
  apply dcg_loop_eq_zero_of_rel_zero
  intro x hx
  exact h x ((List.mem_insertionSort (relGE g)).mp (List.mem_of_mem_take hx))

theorem getD_take_of_lt (d : Item) :
    ∀ (l : List Item) (k i : ℕ), i < k →
      (l.take k).getD i d = l.getD i d := by
  intro l k i hik
  rw [List.getD_eq_getElem?_getD, List.getD_eq_getElem?_getD, List.getElem?_take,
    if_pos hik]

/-- `dcg_loop` as an indexed sum over prefix positions. -/
theorem dcg_loop_eq_sum (g : Bool) :
    ∀ (l : List Item) (s : ℕ),
      dcg_loop g l s =
        ∑ i in Finset.range l.length,
          (get_relevance_score (l.getD i defaultItem) g : ℝ) /
            Real.logb 2 (((s + i : ℕ) : ℝ) + 1) := by
  intro l
  induction l with
  | nil => intro s; simp [dcg_loop]
  | cons x xs ih =>
    intro s
    rw [dcg_loop, ih (s + 1), List.length_cons, Finset.sum_range_succ', add_comm]
    have hhead : (get_relevance_score x g : ℝ) / Real.logb 2 ((s : ℝ) + 1) =
        (get_relevance_score ((x :: xs).getD 0 defaultItem) g : ℝ) /
          Real.logb 2 (((s + 0 : ℕ) : ℝ) + 1) := by
      rw [List.getD_cons_zero, Nat.add_zero]
    rw [hhead]
    congr 1
    apply Finset.sum_congr rfl
    intro i _
    rw [List.getD_cons_succ, show s + 1 + i = s + (i + 1) from by omega]

/-- `calculate_dcg` as the sum over the first `min k (length)` records of
`rel / log2(i + 2)` with `i` the zero-based prefix index. -/
theorem calculate_dcg_eq_sum (l : List Item) (k : ℕ) (g : Bool) :
    calculate_dcg l k g =
      ∑ i in Finset.range (min k l.length),
        (get_relevance_score (l.getD i defaultItem) g : ℝ) /
          Real.logb 2 ((i : ℝ) + 2) := by
  show dcg_loop g (l.take k) 1 = _
  rw [dcg_loop_eq_sum g (l.take k) 1, List.length_take]
  apply Finset.sum_congr rfl
  intro i hi
  rw [Finset.mem_range] at hi
  have hik : i < k := lt_of_lt_of_le hi (by simp [min_le_left])
  rw [getD_take_of_lt defaultItem l k i hik]
  congr 1
  push_cast
  ring_nf

/-! ## Claim theorems -/

/-- Claim C1: for every list of records, every cutoff `k`, and both scoring
modes, `calculate_ndcg` lies in `[0, 1]`; equivalently `calculate_dcg` never
exceeds `calculate_idcg`, because the DCG of any permutation of a multiset of
non-negative relevances is at most the DCG of the relevance-descending
permutation. -/
theorem C1_ndcg_in_unit_interval (l : List Item) (k : ℕ) (g : Bool) :
    0 ≤ calculate_ndcg l k g ∧ calculate_ndcg l k g ≤ 1 ∧
      calculate_dcg l k g ≤ calculate_idcg l k g := by
  refine ⟨?_, ?_, dcg_le_idcg l k g⟩
  · unfold calculate_ndcg
    split_ifs with h
    · exact le_refl 0
    · exact div_nonneg (calculate_dcg_nonneg l k g) (calculate_idcg_nonneg l k g)
  · unfold calculate_ndcg
    split_ifs with h
    · exact zero_le_one
    · have hpos : 0 < calculate_idcg l k g :=
        lt_of_le_of_ne (calculate_idcg_nonneg l k g) (Ne.symm h)
      exact (div_le_one hpos).mpr (dcg_le_idcg l k g)

/-- Claim C7: whenever `calculate_idcg list k mode > 0`, scoring the ideal
ordering against itself is perfect:
`calculate_ndcg (get_ideal_ranking list mode) k mode = 1`. -/
theorem C7_ndcg_of_ideal_ranking_eq_one (l : List Item) (k : ℕ) (g : Bool)
    (h : 0 < calculate_idcg l k g) :
    calculate_ndcg (get_ideal_ranking l g) k g = 1 := by
  have hidem : get_ideal_ranking (get_ideal_ranking l g) g = get_ideal_ranking l g :=
    List.Sorted.insertionSort_eq (List.sorted_insertionSort (relGE g) l)
  have h2 : calculate_idcg (get_ideal_ranking l g) k g = calculate_idcg l k g := by
    unfold calculate_idcg
    rw [hidem]
  unfold calculate_ndcg
  rw [h2, if_neg (ne_of_gt h)]
  exact div_self (ne_of_gt h)

/-- Witness for C7 at the singleton purchased record: its IDCG at `k = 3` is
positive and the ideal ranking scores 1. -/
theorem C7_witness :
    0 < calculate_idcg [⟨1, false, true⟩] 3 true ∧
      calculate_ndcg (get_ideal_ranking [⟨1, false, true⟩] true) 3 true = 1 := by
  have hpos : 0 < calculate_idcg [⟨1, false, true⟩] 3 true := by
    show 0 < dcg_loop true ((List.insertionSort (relGE true)
      [(⟨1, false, true⟩ : Item)]).take 3) 1
    simp only [List.insertionSort, List.orderedInsert, List.take, dcg_loop,
      get_relevance_score]
    norm_num [Real.logb_self_eq_one one_lt_two]
  exact ⟨hpos, C7_ndcg_of_ideal_ranking_eq_one [⟨1, false, true⟩] 3 true hpos⟩

/-- Claim C8: `calculate_idcg` is invariant under permutation of the input
records. -/
theorem C8_idcg_perm_invariant (l1 l2 : List Item) (k : ℕ) (g : Bool)
    (hp : l1.Perm l2) :
    calculate_idcg l1 k g = calculate_idcg l2 k g := by
  unfold calculate_idcg
  rw [calculate_dcg_eq_wsum, calculate_dcg_eq_wsum, map_rel_get_ideal_ranking,
    map_rel_get_ideal_ranking]
  congr 1
  exact insertionSort_descR_eq_of_perm _ _
    (hp.map (fun x => (get_relevance_score x g : ℝ)))

/-- Witness for C8 at a concrete two-record swap. -/
theorem C8_witness :
    calculate_idcg [⟨1, true, false⟩, ⟨2, false, true⟩] 10 true =
      calculate_idcg [⟨2, false, true⟩, ⟨1, true, false⟩] 10 true :=
  C8_idcg_perm_invariant _ _ 10 true
    (List.Perm.swap (⟨2, false, true⟩ : Item) (⟨1, true, false⟩ : Item) [])

/-- Claim C9: `calculate_ndcg` is total and never divides by zero: it
returns `dcg / idcg` when `idcg ≠ 0` and exactly `0` when `idcg = 0`; in
particular a list with no positively-relevant record yields `0`. -/
theorem C9_ndcg_total (l : List Item) (k : ℕ) (g : Bool) :
    (calculate_idcg l k g = 0 → calculate_ndcg l k g = 0) ∧
    (calculate_idcg l k g ≠ 0 →
      calculate_ndcg l k g = calculate_dcg l k g / calculate_idcg l k g) ∧
    ((∀ x ∈ l, get_relevance_score x g = 0) → calculate_ndcg l k g = 0) := by
  refine ⟨fun h => ?_, fun h => ?_, fun h => ?_⟩
  · unfold calculate_ndcg
    rw [if_pos h]
  · unfold calculate_ndcg
    rw [if_neg h]
  · unfold calculate_ndcg
    rw [if_pos (calculate_idcg_eq_zero_of_rel_zero l k g h)]

/-- Witness for C9: a zero-relevance singleton takes the `idcg = 0` branch,
and a purchased singleton takes the division branch. -/
theorem C9_witness :
    calculate_ndcg [⟨1, false, false⟩] 5 true = 0 ∧
      calculate_ndcg [⟨1, false, true⟩] 5 true =
        calculate_dcg [⟨1, false, true⟩] 5 true /
          calculate_idcg [⟨1, false, true⟩] 5 true := by
  constructor
  · apply (C9_ndcg_total [⟨1, false, false⟩] 5 true).2.2
    intro x hx
    rw [List.mem_singleton] at hx
    rw [hx]
    rfl
  · apply (C9_ndcg_total [⟨1, false, true⟩] 5 true).2.1
    show dcg_loop true ((List.insertionSort (relGE true)
      [(⟨1, false, true⟩ : Item)]).take 5) 1 ≠ 0
    simp only [List.insertionSort, List.orderedInsert, List.take, dcg_loop,
      get_relevance_score]
    norm_num [Real.logb_self_eq_one one_lt_two]

/-- Claim C10: the relevance table over all four `(clicked, purchased)`
combinations: graded mode gives 4 to purchased regardless of clicked, 2 to
clicked-not-purchased, 0 otherwise; binary mode gives 1 to purchased and 0
otherwise (a click without purchase scores 0). -/
theorem C10_relevance_table (pos : Int) (c : Bool) :
    get_relevance_score ⟨pos, c, true⟩ true = 4 ∧
    get_relevance_score ⟨pos, true, false⟩ true = 2 ∧
    get_relevance_score ⟨pos, false, false⟩ true = 0 ∧
    get_relevance_score ⟨pos, c, true⟩ false = 1 ∧
    get_relevance_score ⟨pos, true, false⟩ false = 0 ∧
    get_relevance_score ⟨pos, false, false⟩ false = 0 := by
  refine ⟨rfl, rfl, rfl, rfl, rfl, rfl⟩

/-- Claim C2: `calc_gmv_opportunity` returns 0 whenever the current NDCG is
non-positive or at/above target (never a negative uplift), and otherwise
`current_gmv * ((target - current) / current) * UPLIFT_FACTOR` with the
default `UPLIFT_FACTOR = 1.5 = 3/2` — the gap is relative to the current
NDCG; in particular `(0.5, 1000000, 0.7)` yields `600000`. -/
theorem C2_gmv_opportunity_formula (cn gmv t : ℚ) :
    (cn ≤ 0 ∨ t ≤ cn → calc_gmv_opportunity cn gmv t = 0) ∧
    (0 < cn → cn < t →
      calc_gmv_opportunity cn gmv t = gmv * ((t - cn) / cn) * (3 / 2)) ∧
    UPLIFT_FACTOR = 3 / 2 ∧
    calc_gmv_opportunity (1 / 2) 1000000 (7 / 10) = 600000 := by
  refine ⟨fun h => ?_, fun h1 h2 => ?_, by norm_num [UPLIFT_FACTOR], ?_⟩
  · rw [calc_gmv_opportunity, if_pos h]
  · rw [calc_gmv_opportunity, if_neg (by push_neg; exact ⟨h1, h2⟩),
      show UPLIFT_FACTOR = 3 / 2 from by norm_num [UPLIFT_FACTOR]]
    ring
  · norm_num [calc_gmv_opportunity, UPLIFT_FACTOR]

/-- Witness for C2: the at-target clamp and the relative-gap branch at
concrete inputs. -/
theorem C2_witness :
    calc_gmv_opportunity 1 1000000 (7 / 10) = 0 ∧
      calc_gmv_opportunity (1 / 2) 1000000 (7 / 10) =
        1000000 * ((7 / 10 - 1 / 2) / (1 / 2)) * (3 / 2) :=
  ⟨(C2_gmv_opportunity_formula 1 1000000 (7 / 10)).1 (Or.inr (by norm_num)),
    (C2_gmv_opportunity_formula (1 / 2) 1000000 (7 / 10)).2.1 (by norm_num)
      (by norm_num)⟩

/-- Counterexample to claim C4 as stated: the per-endpoint `safe_float` of
`api_gmv_opportunity` (and `api_optimization`) checks only `math.isnan`, so
a positive Infinity is returned unchanged instead of being normalized to the
default 0. -/
theorem C4_counterexample :
    endpoint_safe_float (PyVal.flt PyFloat.inf) (PyFloat.fin 0) = PyFloat.inf ∧
      endpoint_safe_float (PyVal.flt PyFloat.inf) (PyFloat.fin 0) ≠
        PyFloat.fin 0 := by
  refine ⟨rfl, ?_⟩
  intro hcontra
  exact PyFloat.noConfusion (hcontra : PyFloat.inf = PyFloat.fin 0)

/-- Claim C4 (amended): the module-level `safe_float` maps None, NaN, both
infinities and unparseable input to the default and finite floats to
themselves, while the per-endpoint helpers of `api_optimization` and
`api_gmv_opportunity` map None, NaN and unparseable input to the default but
pass both infinities through unchanged. -/
theorem C4_safe_float_behaviour (q : ℚ) (d : Option PyFloat) (e : PyFloat) :
    safe_float PyVal.none d = d ∧
    safe_float (PyVal.flt PyFloat.nan) d = d ∧
    safe_float (PyVal.flt PyFloat.inf) d = d ∧
    safe_float (PyVal.flt PyFloat.ninf) d = d ∧
    safe_float PyVal.unparseable d = d ∧
    safe_float (PyVal.flt (PyFloat.fin q)) d = some (PyFloat.fin q) ∧
    endpoint_safe_float PyVal.none e = e ∧
    endpoint_safe_float (PyVal.flt PyFloat.nan) e = e ∧
    endpoint_safe_float PyVal.unparseable e = e ∧
    endpoint_safe_float (PyVal.flt (PyFloat.fin q)) e = PyFloat.fin q ∧
    endpoint_safe_float (PyVal.flt PyFloat.inf) e = PyFloat.inf ∧
    endpoint_safe_float (PyVal.flt PyFloat.ninf) e = PyFloat.ninf :=
  ⟨rfl, rfl, rfl, rfl, rfl, rfl, rfl, rfl, rfl, rfl, rfl, rfl⟩

/-- Claim C6: `get_ideal_ranking` is a stable descending sort by relevance:
the output is a permutation of the input, it is sorted so that strictly
higher relevance comes first, and the records of any fixed relevance keep
their original relative order. -/
theorem C6_ideal_ranking_stable_sort (l : List Item) (g : Bool) :
    (get_ideal_ranking l g).Perm l ∧
    List.Sorted (relGE g) (get_ideal_ranking l g) ∧
    ∀ c : ℕ,
      (get_ideal_ranking l g).filter (fun x => get_relevance_score x g == c) =
        l.filter (fun x => get_relevance_score x g == c) := by
  refine ⟨List.perm_insertionSort (relGE g) l,
    List.sorted_insertionSort (relGE g) l, fun c => ?_⟩
  have hallp : ∀ x ∈ l.filter (fun x => get_relevance_score x g == c),
      (get_relevance_score x g == c) = true := fun x hx =>
    (List.mem_filter.mp hx).2
  have hpair : (l.filter (fun x => get_relevance_score x g == c)).Pairwise
      (relGE g) := by
    apply List.pairwise_of_forall_mem_list
    intro a ha b hb
    have hac : get_relevance_score a g = c := by simpa using hallp a ha
    have hbc : get_relevance_score b g = c := by simpa using hallp b hb
    unfold relGE
    rw [hac, hbc]
  have hsubl : (l.filter (fun x => get_relevance_score x g == c)).Sublist
      (get_ideal_ranking l g) :=
    List.sublist_insertionSort hpair (List.filter_sublist l)
  have hsub2 : (l.filter (fun x => get_relevance_score x g == c)).Sublist
      ((get_ideal_ranking l g).filter (fun x => get_relevance_score x g == c)) := by
    have h2 := List.Sublist.filter (fun x => get_relevance_score x g == c) hsubl
    rwa [List.filter_eq_self.mpr hallp] at h2
  have hperm : ((get_ideal_ranking l g).filter
      (fun x => get_relevance_score x g == c)).Perm
        (l.filter (fun x => get_relevance_score x g == c)) :=
    List.Perm.filter _ (List.perm_insertionSort (relGE g) l)
  exact (List.Sublist.eq_of_length hsub2 hperm.length_eq.symm).symm

/-- Claim C3: `calculate_dcg` sums `relevance / log2(i + 1)` over the first
`min k (length)` records in their existing order with `i` the 1-based index
within the truncated prefix; the result is independent of the records'
`position` fields, and the empty list yields 0. -/
theorem C3_dcg_formula (k : ℕ) (g : Bool) :
    calculate_dcg [] k g = 0 ∧
    (∀ l : List Item,
      calculate_dcg l k g =
        ∑ i in Finset.range (min k l.length),
          (get_relevance_score (l.getD i defaultItem) g : ℝ) /
            Real.logb 2 ((i : ℝ) + 2)) ∧
    (∀ l1 l2 : List Item, l1.map interactionFlags = l2.map interactionFlags →
      calculate_dcg l1 k g = calculate_dcg l2 k g) := by
  refine ⟨?_, fun l => calculate_dcg_eq_sum l k g, fun l1 l2 h => ?_⟩
  · show dcg_loop g (List.take k []) 1 = 0
    rw [List.take_nil]
    rfl
  · apply calculate_dcg_congr_rel
    have e1 : l1.map (fun x => get_relevance_score x g) =
        (l1.map interactionFlags).map (fun p => relPair p g) := by
      rw [List.map_map]; rfl
    have e2 : l2.map (fun x => get_relevance_score x g) =
        (l2.map interactionFlags).map (fun p => relPair p g) := by
      rw [List.map_map]; rfl
    rw [e1, e2, h]

/-- Witness for C3: two singleton lists differing only in their `position`
fields have equal DCG, via the position-independence conjunct. -/
theorem C3_witness :
    calculate_dcg [⟨5, true, false⟩] 10 true =
      calculate_dcg [⟨99, true, false⟩] 10 true :=
  (C3_dcg_formula 10 true).2.2 [⟨5, true, false⟩] [⟨99, true, false⟩] rfl

/-- Counterexample to claim C5 as stated: in the `api_gmv_opportunity`
pipeline the `overall` benchmark is computed `FROM dimension_metrics`, i.e.
after the `HAVING COUNT(DISTINCT session_id) >= 50` filter, so the sessions
of a below-threshold group ("a", one session, NDCG 0) are NOT included in
the overall aggregate: the code yields 1 while the spec-modelled
all-groups benchmark yields 1/2. -/
theorem C5_counterexample :
    distinctSessions c5rows "a" < GMV_MIN_SESSIONS ∧
    "a" ∉ (dimension_metrics GMV_MIN_SESSIONS c5rows).map Prod.fst ∧
    overall_avg_ndcg GMV_MIN_SESSIONS c5rows = 1 ∧
    overall_avg_ndcg_all_groups c5rows = 1 / 2 := by
  have hfilter : (groupValues c5rows).filter
      (fun v => GMV_MIN_SESSIONS ≤ distinctSessions c5rows v) = ["b"] := by
    decide
  have hg : groupValues c5rows = ["b", "a"] := by decide
  have hb : (groupRows c5rows "b").map (fun r => r.ndcg) =
      List.replicate 50 1 := by decide
  have ha : (groupRows c5rows "a").map (fun r => r.ndcg) = [0] := by decide
  refine ⟨by decide, by decide, ?_, ?_⟩
  · have e1 : overall_avg_ndcg GMV_MIN_SESSIONS c5rows =
        avgQ [avgQ ((groupRows c5rows "b").map (fun r => r.ndcg))] := by
      unfold overall_avg_ndcg dimension_metrics
      rw [hfilter]
      rfl
    rw [e1, hb]
    norm_num [avgQ, List.sum_replicate]
  · have e2 : overall_avg_ndcg_all_groups c5rows =
        avgQ [avgQ ((groupRows c5rows "b").map (fun r => r.ndcg)),
          avgQ ((groupRows c5rows "a").map (fun r => r.ndcg))] := by
      unfold overall_avg_ndcg_all_groups
      rw [hg]
      rfl
    rw [e2, hb, ha]
    norm_num [avgQ, List.sum_replicate]

theorem dedup_filter {α : Type} [DecidableEq α] (p : α → Bool) :
    ∀ l : List α, (l.filter p).dedup = l.dedup.filter p := by
  intro l
  induction l with
  | nil => rfl
  | cons a l ih =>
    by_cases hpa : p a = true
    · rw [List.filter_cons_of_pos hpa]
      by_cases hal : a ∈ l
      · rw [List.dedup_cons_of_mem (List.mem_filter.mpr ⟨hal, hpa⟩), ih,
          List.dedup_cons_of_mem hal]
      · rw [List.dedup_cons_of_not_mem
            (fun hc => hal (List.mem_of_mem_filter hc)), ih,
          List.dedup_cons_of_not_mem hal, List.filter_cons_of_pos hpa]
    · rw [List.filter_cons_of_neg hpa]
      by_cases hal : a ∈ l
      · rw [ih, List.dedup_cons_of_mem hal]
      · rw [ih, List.dedup_cons_of_not_mem hal, List.filter_cons_of_neg hpa]

/-- Removing all rows of one dimension value does not disturb the other
groups' row lists. -/
theorem groupRows_filter_ne (rows : List SessionRow) (v0 v : String)
    (hv : v ≠ v0) :
    groupRows (rows.filter (fun r => r.dimension_value ≠ v0)) v =
      groupRows rows v := by
  unfold groupRows
  rw [List.filter_filter]
  apply List.filter_congr
  intro r _
  by_cases h : r.dimension_value = v
  · simp [h, hv]
  · simp [h]

/-- Removing all rows of one dimension value removes exactly that value from
the grouping keys. -/
theorem groupValues_filter_ne (rows : List SessionRow) (v0 : String) :
    groupValues (rows.filter (fun r => r.dimension_value ≠ v0)) =
      (groupValues rows).filter (fun v => v ≠ v0) := by
  unfold groupValues
  rw [← dedup_filter (fun v => v ≠ v0) (rows.map (fun r => r.dimension_value))]
  congr 1
  rw [List.filter_map]
  congr 1

theorem distinctSessions_filter_ne (rows : List SessionRow) (v0 v : String)
    (hv : v ≠ v0) :
    distinctSessions (rows.filter (fun r => r.dimension_value ≠ v0)) v =
      distinctSessions rows v := by
  unfold distinctSessions
  rw [groupRows_filter_ne rows v0 v hv]

/-- Claim C5 (amended): a dimension group below the session-count threshold
(100 in `api_optimization`, 50 in `api_gmv_opportunity`) is excluded from
the per-dimension breakdown, and its sessions are also excluded from the
overall benchmark: deleting all of its rows changes neither the breakdown
nor the overall average NDCG, because `overall` is computed from the
filtered `dimension_metrics`. -/
theorem C5_below_threshold_excluded_everywhere (minS : ℕ)
    (rows : List SessionRow) (v0 : String)
    (hlt : distinctSessions rows v0 < minS) :
    v0 ∉ (dimension_metrics minS rows).map Prod.fst ∧
    dimension_metrics minS (rows.filter (fun r => r.dimension_value ≠ v0)) =
      dimension_metrics minS rows ∧
    overall_avg_ndcg minS (rows.filter (fun r => r.dimension_value ≠ v0)) =
      overall_avg_ndcg minS rows := by
  have hmain : dimension_metrics minS
      (rows.filter (fun r => r.dimension_value ≠ v0)) =
        dimension_metrics minS rows := by
    unfold dimension_metrics
    rw [groupValues_filter_ne, List.filter_filter]
    have hcong : ∀ v ∈ groupValues rows,
        (decide (minS ≤ distinctSessions
            (rows.filter (fun r => r.dimension_value ≠ v0)) v) &&
          decide (v ≠ v0)) =
          decide (minS ≤ distinctSessions rows v) := by
      intro v _
      by_cases hvv : v = v0
      · subst hvv
        have hnot : ¬(minS ≤ distinctSessions rows v) := Nat.not_le.mpr hlt
        simp [hnot]
      · rw [distinctSessions_filter_ne rows v0 v hvv]
        simp [hvv]
    rw [List.filter_congr hcong]
    apply List.map_congr_left
    intro v hv
    have hthr := (List.mem_filter.mp hv).2
    have hne : v ≠ v0 := by
      intro hcontra
      subst hcontra
      simp at hthr
      omega
    rw [groupRows_filter_ne rows v0 v hne]
  refine ⟨?_, hmain, ?_⟩
  · intro hmem
    rw [dimension_metrics, List.map_map] at hmem
    have hid : (Prod.fst ∘ fun v =>
        (v, avgQ ((groupRows rows v).map (fun r => r.ndcg)))) = id := rfl
    rw [hid, List.map_id] at hmem
    have hthr := (List.mem_filter.mp hmem).2
    simp at hthr
    omega
  · unfold overall_avg_ndcg
    rw [hmain]

/-- Witness for the amended C5 at the concrete dataset: group "a" has one
session (below the 50-session threshold of `api_gmv_opportunity`), is
absent from the breakdown, and deleting its rows leaves breakdown and
overall benchmark unchanged. -/
theorem C5_witness :
    "a" ∉ (dimension_metrics GMV_MIN_SESSIONS c5rows).map Prod.fst ∧
    dimension_metrics GMV_MIN_SESSIONS
        (c5rows.filter (fun r => r.dimension_value ≠ "a")) =
      dimension_metrics GMV_MIN_SESSIONS c5rows ∧
    overall_avg_ndcg GMV_MIN_SESSIONS
        (c5rows.filter (fun r => r.dimension_value ≠ "a")) =
      overall_avg_ndcg GMV_MIN_SESSIONS c5rows :=
  C5_below_threshold_excluded_everywhere GMV_MIN_SESSIONS c5rows "a" (by decide)

end NdcgSpec
